import Mathlib

/-!
Shallow embedding of the event-aggregation service in `src/main.py`:
timestamp normalization (`rfc_to_utc_dt`), the ingestion driver
(`process_csv`), the storage upsert layer (`batch_commit`), and the hourly
rollup query (`hourly_event_count`), together with theorems settling the
specification claims about them.

Conventions of the embedding:
  * UTC instants are represented as `Int` microseconds on Python's
    proleptic-Gregorian ordinal timeline (the same linearization
    `datetime.toordinal` uses), so `astimezone(pytz.utc)` becomes
    subtraction of the parsed offset and `replace(second=0, microsecond=0)`
    becomes flooring to a multiple of 60,000,000 microseconds.
  * The sqlite `events_aggregation` table is an association list from
    `(customer_id, minute)` to `event_count`; the `INSERT ... ON CONFLICT
    DO UPDATE SET event_count = event_count + EXCLUDED.event_count`
    statement executed by `executemany` row-by-row is the fold of a single
    row upsert over the batch.
  * Python's insertion-ordered `dict`/`defaultdict` buffer is an
    association list with unique keys, appended to on first insertion.
-/

namespace EventAgg

/-! ### Association-list maps

Common representation for the sqlite table, the in-memory aggregation
buffer, and the hourly query's `defaultdict` result. -/

/-- One lookup in an association list: the first binding of the key, if any.
This is the row for `(customer_id, minute)` in the sqlite table, or a
`dict` lookup in Python. -/
def getA {κ : Type} [DecidableEq κ] : List (κ × Nat) → κ → Option Nat
  | [], _ => none
  | (k', c) :: rest, k => if k' = k then some c else getA rest k

/-- One sqlite upsert row (`INSERT ... ON CONFLICT(customer_id, minute) DO
UPDATE SET event_count = event_count + EXCLUDED.event_count`): add to the
existing binding, or append a new binding. Also models
`defaultdict(lambda: 0)`'s `d[k] += c`. -/
def upsertA {κ : Type} [DecidableEq κ] : List (κ × Nat) → κ × Nat → List (κ × Nat)
  | [], e => [e]
  | (k', c') :: rest, e => if k' = e.1 then (k', c' + e.2) :: rest else (k', c') :: upsertA rest e

/-- Embeds `cur.executemany(insert, data)`: the upsert applied to each batch entry
in order. -/
def applyBatch {κ : Type} [DecidableEq κ] (st : List (κ × Nat)) (b : List (κ × Nat)) :
    List (κ × Nat) :=
  b.foldl upsertA st

/-- Whether some entry of the batch has the given key. -/
def keyInA {κ : Type} [DecidableEq κ] (b : List (κ × Nat)) (k : κ) : Bool :=
  b.any (fun e => decide (e.1 = k))

/-- Total count carried by a batch for one key (sum over all its entries
with that key). -/
def cntA {κ : Type} [DecidableEq κ] (b : List (κ × Nat)) (k : κ) : Nat :=
  ((b.filter (fun e => decide (e.1 = k))).map Prod.snd).sum

/-! ### The data model of `src/main.py`

A durable row of the `events_aggregation` table is keyed by
`(customer_id, minute)`; minutes and all other instants are `Int`
microseconds on the proleptic-Gregorian timeline (see the header). -/

/-- Aggregation key: `(customer_id, minute bucket)`. -/
abbrev Key : Type := String × Int

/-- The sqlite `events_aggregation` table. -/
abbrev Store : Type := List (Key × Nat)

/-- One batch handed to `batch_commit` (the `data` list built from the
buffer's items). -/
abbrev Batch : Type := List (Key × Nat)

/-- The in-memory `event_count` defaultdict of `process_csv`. -/
abbrev Buf : Type := List (Key × Nat)

/-- Embeds `batch_commit(event_count)`: the `INSERT ... ON CONFLICT DO UPDATE`
upsert applied with `executemany` to every batch entry, in one
transaction. -/
def batch_commit (st : Store) (b : Batch) : Store := applyBatch st b

/-! ### Calendar arithmetic

Python `datetime` linearizes civil dates with the proleptic-Gregorian
ordinal (`date.toordinal`); we reuse that linearization to turn a parsed
`datetime` into absolute microseconds, so that `astimezone(pytz.utc)` is
offset subtraction. -/

/-- Gregorian leap year test. -/
def isLeap (y : Nat) : Bool := y % 4 == 0 && (y % 100 != 0 || y % 400 == 0)

/-- Days in the months preceding month `m` of year `y`. -/
def daysBeforeMonth (y m : Nat) : Nat :=
  (match m with
    | 1 => 0 | 2 => 31 | 3 => 59 | 4 => 90 | 5 => 120 | 6 => 151
    | 7 => 181 | 8 => 212 | 9 => 243 | 10 => 273 | 11 => 304 | 12 => 334
    | _ => 0) +
  (if 3 ≤ m ∧ isLeap y then 1 else 0)

/-- Number of days in month `m` of year `y`. -/
def daysInMonth (y m : Nat) : Nat :=
  match m with
  | 1 => 31 | 2 => if isLeap y then 29 else 28 | 3 => 31 | 4 => 30 | 5 => 31
  | 6 => 30 | 7 => 31 | 8 => 31 | 9 => 30 | 10 => 31 | 11 => 30 | 12 => 31
  | _ => 0

/-- Embeds `date(y, m, d).toordinal()`: day number with 0001-01-01 as day 1. -/
def toOrdinal (y m d : Nat) : Nat :=
  365 * (y - 1) + (y - 1) / 4 - (y - 1) / 100 + (y - 1) / 400 + daysBeforeMonth y m + d

/-- Absolute microseconds of a civil instant (no offset applied). -/
def epochMicros (y m d h mi s us : Nat) : Int :=
  (((((toOrdinal y m d) * 24 + h) * 3600 + mi * 60 + s) * 1000000 + us : Nat) : Int)

/-- Embeds `utc_dt.replace(second=0, microsecond=0)`: floor an instant to its
minute. -/
def roundMinute (t : Int) : Int := t - t % 60000000

/-- Embeds `strftime('%Y-%m-%d %H', minute)`: floor an instant to its hour. -/
def hourFloor (t : Int) : Int := t - t % 3600000000

/-! ### Timestamp parsing (`rfc_to_utc_dt`)

The strict path is `datetime.strptime(timestamp, '%Y-%m-%d %H:%M:%S.%f%z')`;
on `ValueError` the code falls back to `dateutil.parser.parse`. -/

/-- The fields of a parsed Python `datetime` (with its fixed-offset
`tzinfo` in minutes). -/
structure PyDateTime where
  year : Nat
  month : Nat
  day : Nat
  hour : Nat
  minute : Nat
  second : Nat
  usec : Nat
  offMin : Int
deriving DecidableEq, Repr

/-- Value of a decimal digit character. -/
def digitVal (c : Char) : Option Nat :=
  if c.isDigit then some (c.toNat - '0'.toNat) else none

def readDigitsAux : Nat → Nat → List Char → Option (Nat × List Char)
  | 0, acc, cs => some (acc, cs)
  | _ + 1, _, [] => none
  | n + 1, acc, c :: cs =>
    match digitVal c with
    | some v => readDigitsAux n (acc * 10 + v) cs
    | none => none

/-- Read exactly `n` decimal digits. -/
def readNDigits (n : Nat) (cs : List Char) : Option (Nat × List Char) :=
  readDigitsAux n 0 cs

/-- Expect one specific character. -/
def expectChar (ch : Char) : List Char → Option (List Char)
  | [] => none
  | c :: cs => if c = ch then some cs else none

def readFracDigits : List Char → Nat → Nat → Nat × Nat × List Char
  | [], acc, n => (acc, n, [])
  | c :: cs, acc, n =>
    if 6 ≤ n then (acc, n, c :: cs)
    else
      match digitVal c with
      | some v => readFracDigits cs (acc * 10 + v) (n + 1)
      | none => (acc, n, c :: cs)

/-- Reads `%f`: one to six fractional-second digits, scaled to microseconds
(`.5` is 500000). -/
def readFrac (cs : List Char) : Option (Nat × List Char) :=
  let r := readFracDigits cs 0 0
  if r.2.1 = 0 then none else some (r.1 * 10 ^ (6 - r.2.1), r.2.2)

/-- Reads `%z`: `±HHMM` or `±HH:MM`; the resulting offset must be under 24
hours (Python builds a `timedelta` and rejects a day or more). -/
def readOffset (cs : List Char) : Option (Int × List Char) :=
  match cs with
  | [] => none
  | c :: rest =>
    if c = '+' ∨ c = '-' then
      match readNDigits 2 rest with
      | none => none
      | some (hh, rest2) =>
        let rest3 := match rest2 with
          | ':' :: r => r
          | _ => rest2
        match readNDigits 2 rest3 with
        | none => none
        | some (mm, rest4) =>
          if hh * 60 + mm < 1440 then
            some ((if c = '+' then (1 : Int) else -1) * (hh * 60 + mm), rest4)
          else none
    else none

/-- Range validation performed by the `datetime` constructor. -/
def validDate (y mo d h mi s : Nat) : Bool :=
  decide (1 ≤ y) && decide (y ≤ 9999) && decide (1 ≤ mo) && decide (mo ≤ 12) &&
  decide (1 ≤ d) && decide (d ≤ daysInMonth y mo) && decide (h ≤ 23) &&
  decide (mi ≤ 59) && decide (s ≤ 59)

/-- Embeds `datetime.strptime(s, '%Y-%m-%d %H:%M:%S.%f%z')`. -/
def strptimeMicro (s : String) : Option PyDateTime := do
  let (y, cs) ← readNDigits 4 s.data
  let cs ← expectChar '-' cs
  let (mo, cs) ← readNDigits 2 cs
  let cs ← expectChar '-' cs
  let (d, cs) ← readNDigits 2 cs
  let cs ← expectChar ' ' cs
  let (h, cs) ← readNDigits 2 cs
  let cs ← expectChar ':' cs
  let (mi, cs) ← readNDigits 2 cs
  let cs ← expectChar ':' cs
  let (sec, cs) ← readNDigits 2 cs
  let cs ← expectChar '.' cs
  let (us, cs) ← readFrac cs
  let (off, cs) ← readOffset cs
  match cs with
  | [] => if validDate y mo d h mi sec then some ⟨y, mo, d, h, mi, sec, us, off⟩ else none
  | _ => none

/-- A `datetime.strptime(s, '%Y-%m-%d %H:%M:%S%z')`-shaped parse (no
fractional seconds), used below to model the permissive fallback. -/
def strptimeNoFrac (s : String) : Option PyDateTime := do
  let (y, cs) ← readNDigits 4 s.data
  let cs ← expectChar '-' cs
  let (mo, cs) ← readNDigits 2 cs
  let cs ← expectChar '-' cs
  let (d, cs) ← readNDigits 2 cs
  let cs ← expectChar ' ' cs
  let (h, cs) ← readNDigits 2 cs
  let cs ← expectChar ':' cs
  let (mi, cs) ← readNDigits 2 cs
  let cs ← expectChar ':' cs
  let (sec, cs) ← readNDigits 2 cs
  let (off, cs) ← readOffset cs
  match cs with
  | [] => if validDate y mo d h mi sec then some ⟨y, mo, d, h, mi, sec, 0, off⟩ else none
  | _ => none

/-- Modelled from the spec: the permissive fallback parser
(`dateutil.parser.parse`, an external library whose source is not part of
this repository), restricted to the two RFC3339-like shapes this system
feeds it — the fixed pattern with and without fractional seconds. -/
def dateutilParse (s : String) : Option PyDateTime :=
  match strptimeNoFrac s with
  | some d => some d
  | none => strptimeMicro s

/-- Embeds `dt.astimezone(pytz.utc)` on the absolute timeline: subtract the
parsed offset. -/
def toUtcMicros (d : PyDateTime) : Int :=
  epochMicros d.year d.month d.day d.hour d.minute d.second d.usec - d.offMin * 60000000

/-- Embeds `timestamp.index('+')`: position of the first `'+'`, or `None`
(a raised `ValueError`) when absent. -/
def findPlus : List Char → Option Nat
  | [] => none
  | c :: cs => if c = '+' then some 0 else (findPlus cs).map (· + 1)

/-- Lines 54–57 of `main.py`: if the suffix after the first `'+'` is not 4
characters long, append `"0" * (4 - tz_info_len)` (a negative repeat count
in Python yields the empty string, exactly like truncated `Nat`
subtraction here). -/
def padTimestamp (s : String) (i : Nat) : String :=
  let tzLen := s.length - (i + 1)
  if tzLen ≠ 4 then s ++ String.mk (List.replicate (4 - tzLen) '0') else s

/-- The error taxonomy of §7 for the normalizer. -/
inductive TsError where
  | malformedTimestamp
deriving DecidableEq, Repr

/-- The try/except of lines 58–63: strict parse, then the permissive
fallback, then failure. -/
def parsePadded (s : String) : Except TsError Int :=
  match strptimeMicro s with
  | some d => .ok (toUtcMicros d)
  | none =>
    match dateutilParse s with
    | some d => .ok (toUtcMicros d)
    | none => .error .malformedTimestamp

/-- Embeds `rfc_to_utc_dt`: locate `'+'` (failing when absent), pad the offset,
parse, and convert to UTC. -/
def rfc_to_utc_dt (s : String) : Except TsError Int :=
  match findPlus s.data with
  | none => .error .malformedTimestamp
  | some i => parsePadded (padTimestamp s i)

/-! ### Ingestion driver (`process_csv`)

One CSV row with the fixed field order of the `DictReader`. The driver is
instrumented to also report the committed batches (in commit order, final
flush included) and the buffer contents after each processed record; both
are determined by the Python control flow and carry no extra state. -/

/-- One row of `events.csv`. -/
structure Record where
  customer_id : String
  event_type : String
  txn_id : String
  timestamp : String
deriving DecidableEq, Repr

/-- Outcome of a run of `process_csv`: normal termination, or the
propagated `MalformedTimestamp` abort. Both carry the durable store, the
batches committed (in order), and the buffer after each processed
record. -/
inductive IngestResult where
  | ok (st : Store) (batches : List Batch) (bufs : List Buf)
  | malformed (st : Store) (batches : List Batch) (bufs : List Buf)
deriving DecidableEq, Repr

/-- Committed batches of a run, in commit order. -/
def IngestResult.batches : IngestResult → List Batch
  | .ok _ bs _ => bs
  | .malformed _ bs _ => bs

/-- Buffer contents after each processed record. -/
def IngestResult.bufs : IngestResult → List Buf
  | .ok _ _ tr => tr
  | .malformed _ _ tr => tr

/-- Durable store when the run ends (committed rows only). -/
def IngestResult.store : IngestResult → Store
  | .ok st _ _ => st
  | .malformed st _ _ => st

/-- The loop of `process_csv` over the remaining records, with the flush
threshold as a parameter (`1_000` in the source). Per record: if the
buffer has reached the threshold, `batch_commit` it and clear it; then
normalize the timestamp (aborting the run on failure), round down to the
minute, and increment the buffer at `(customer_id, minute)`. After the
last record, one unconditional final `batch_commit`. -/
def processLoop (thr : Nat) : List Record → Buf → Store → IngestResult
  | [], buf, st => .ok (batch_commit st buf) [buf] []
  | r :: rest, buf, st =>
    let st1 := if thr ≤ buf.length then batch_commit st buf else st
    let buf1 : Buf := if thr ≤ buf.length then [] else buf
    let fb : List Batch := if thr ≤ buf.length then [buf] else []
    match rfc_to_utc_dt r.timestamp with
    | .error _ => .malformed st1 fb []
    | .ok t =>
      let buf2 := upsertA buf1 ((r.customer_id, roundMinute t), 1)
      match processLoop thr rest buf2 st1 with
      | .ok st' bs tr => .ok st' (fb ++ bs) (buf2 :: tr)
      | .malformed st' bs tr => .malformed st' (fb ++ bs) (buf2 :: tr)

/-- Embeds `process_csv`: run the loop from an empty buffer with the source's
threshold of 1000 over the rows of the file, against the given initial
table state. -/
def process_csv (rows : List Record) (st : Store) : IngestResult :=
  processLoop 1000 rows [] st

/-! ### Flush failure model (for the all-or-nothing guarantee)

`batch_commit` runs inside one sqlite transaction (`executemany` then
`conn.commit()`): the environment either commits the whole batch or
raises, leaving the table untouched. A schedule of booleans says whether
each successive commit attempt fails. -/

/-- One flush as seen by the caller: on success every entry is merged and
the buffer comes back cleared; on failure nothing changes. -/
def flushAttempt (fail : Bool) (st : Store) (buf : Buf) : Except Unit (Store × Buf) :=
  if fail then .error () else .ok (batch_commit st buf, [])

/-- Outcome of a run whose commits may fail: `storageFailed` carries the
durable store (previous commits only) and the in-memory buffer exactly as
they stood when the failing flush was attempted. -/
inductive IngestResultF where
  | ok (st : Store)
  | malformed (st : Store)
  | storageFailed (st : Store) (buf : Buf)
deriving DecidableEq, Repr

/-- The `process_csv` loop with each `batch_commit` mediated by
`flushAttempt` under the failure schedule (`sched.headD false` is the
current attempt's fate). The code clears the buffer only after
`batch_commit` returns, so a raised storage error leaves it intact. -/
def processLoopF (thr : Nat) : List Bool → List Record → Buf → Store → IngestResultF
  | sched, [], buf, st =>
    match flushAttempt (sched.headD false) st buf with
    | .error _ => .storageFailed st buf
    | .ok (st', _) => .ok st'
  | sched, r :: rest, buf, st =>
    if thr ≤ buf.length then
      match flushAttempt (sched.headD false) st buf with
      | .error _ => .storageFailed st buf
      | .ok (st', buf') =>
        match rfc_to_utc_dt r.timestamp with
        | .error _ => .malformed st'
        | .ok t =>
          processLoopF thr sched.tail rest (upsertA buf' ((r.customer_id, roundMinute t), 1)) st'
    else
      match rfc_to_utc_dt r.timestamp with
      | .error _ => .malformed st
      | .ok t => processLoopF thr sched rest (upsertA buf ((r.customer_id, roundMinute t), 1)) st

/-! ### Hourly rollup query and its callers -/

/-- Exceptions escaping the Python query path: `AttributeError` from
`None.index('+')` when a parameter is missing, or a normalization
failure. -/
inductive PyError where
  | attributeError
  | ts (e : TsError)
deriving DecidableEq, Repr

/-- Embeds `GROUP BY strftime('%Y-%m-%d %H', minute)` with `sum(event_count)`,
followed by the `defaultdict` copy of the result rows: accumulate each
selected row's count into its hour bucket. -/
def groupByHour (rows : List (Key × Nat)) : List (Int × Nat) :=
  applyBatch [] (rows.map (fun row => (hourFloor row.1.2, row.2)))

/-- Embeds `hourly_event_count(customer_id, start, end)`. The parameters arrive
as `Option`s because the Flask route passes `request.args.get(...)`
results straight through; `rfc_to_utc_dt(None)` raises
`AttributeError`. The SQL `WHERE` clause keeps rows with
`minute >= start AND minute < end AND customer_id = ?`; binding NULL for
the customer makes the equality never hold. -/
def hourly_event_count (customer_id : Option String) (start endS : Option String)
    (st : Store) : Except PyError (List (Int × Nat)) :=
  match start with
  | none => .error .attributeError
  | some s =>
    match rfc_to_utc_dt s with
    | .error e => .error (.ts e)
    | .ok startM =>
      match endS with
      | none => .error .attributeError
      | some e =>
        match rfc_to_utc_dt e with
        | .error e' => .error (.ts e')
        | .ok endM =>
          .ok (groupByHour (st.filter (fun row =>
            (match customer_id with
              | some c => decide (row.1.1 = c)
              | none => false)
            && decide (startM ≤ row.1.2) && decide (row.1.2 < endM))))

/-- What the Flask route produces: a JSON 200 response, or the 500 page
for an exception that escapes the handler. -/
inductive RouteResult where
  | response (body : List (Int × Nat))
  | serverError
deriving DecidableEq, Repr

/-- Embeds `hourly_event_count_route`: reads the three query parameters with
`args.get` (each `None` when absent) and calls `hourly_event_count` with
no validation whatsoever. -/
def hourly_event_count_route (customer_id start endS : Option String) (st : Store) :
    RouteResult :=
  match hourly_event_count customer_id start endS st with
  | .ok r => .response r
  | .error _ => .serverError

/-- Python truthiness test `not arg` used by the CLI: `None` and the empty
string are both falsy. -/
def argMissing : Option String → Bool
  | none => true
  | some s => s.isEmpty

/-- Outcome of the CLI query path. -/
inductive CliResult where
  | missingArgs
  | printed (r : Except PyError (List (Int × Nat)))
deriving Repr

/-- The non-server branch of `__main__`: reject when any of customer id,
start, end is falsy (printing a diagnostic and exiting before any query),
otherwise run and print the query. -/
def cliMain (customer_id start endS : Option String) (st : Store) : CliResult :=
  if argMissing customer_id || argMissing start || argMissing endS then .missingArgs
  else .printed (hourly_event_count customer_id start endS st)

/-! ### Concrete fixtures used by the claims -/

/-- The minute bucket `2021-03-01 hh:mi:00+00:00` as an absolute instant. -/
def bkt (h mi : Nat) : Int := epochMicros 2021 3 1 h mi 0 0

def exR1 : Record := ⟨"c1", "CLICK", "t1", "2021-03-01 14:15:30.500000+0000"⟩

def exR2 : Record := ⟨"c1", "CLICK", "t2", "2021-03-01 14:16:30.500000+0000"⟩

def exR3 : Record := ⟨"c1", "CLICK", "t3", "2021-03-01 14:17:30.500000+0000"⟩

/-- A record whose timestamp has no `'+'` at all. -/
def exBad : Record := ⟨"c1", "CLICK", "t4", "garbage"⟩

/-- Minute buckets at 14:15, 14:45 and 15:15 with one event each for
customer `c1` (the boundary-clipping fixture of §8 of the spec). -/
def exStore3 : Store :=
  [(("c1", bkt 14 15), 1), (("c1", bkt 14 45), 1), (("c1", bkt 15 15), 1)]

/-! ### Library lemmas about the association-list operations -/

theorem getA_upsertA_self {κ : Type} [DecidableEq κ] (st : List (κ × Nat)) (k : κ) (c : Nat) :
    getA (upsertA st (k, c)) k = some ((getA st k).getD 0 + c) := by
  induction st with
  | nil => simp [getA, upsertA]
  | cons e rest ih =>
    obtain ⟨k', c'⟩ := e
    by_cases h : k' = k
    · subst h
      simp [getA, upsertA]
    · simp [getA, upsertA, h, ih]

theorem getA_upsertA_ne {κ : Type} [DecidableEq κ] (st : List (κ × Nat)) (e : κ × Nat) (k : κ)
    (h : e.1 ≠ k) : getA (upsertA st e) k = getA st k := by
  have hks : k ≠ e.1 := Ne.symm h
  induction st with
  | nil => simp [getA, upsertA, h]
  | cons e' rest ih =>
    obtain ⟨k', c'⟩ := e'
    by_cases h' : k' = e.1
    · have hk : k' ≠ k := by rw [h']; exact h
      simp [getA, upsertA, h', hk, h]
    · by_cases h'' : k' = k
      · simp [getA, upsertA, h', h'', hks, h]
      · simp [getA, upsertA, h', h'', hks, h, ih]

theorem keyInA_cons {κ : Type} [DecidableEq κ] (e : κ × Nat) (b : List (κ × Nat)) (k : κ) :
    keyInA (e :: b) k = (decide (e.1 = k) || keyInA b k) := by
  simp [keyInA]

theorem cntA_cons_self {κ : Type} [DecidableEq κ] (k : κ) (c : Nat) (b : List (κ × Nat)) :
    cntA ((k, c) :: b) k = c + cntA b k := by
  simp [cntA, List.filter_cons]

theorem cntA_cons_ne {κ : Type} [DecidableEq κ] {k' : κ} (c : Nat) (b : List (κ × Nat)) {k : κ}
    (h : k' ≠ k) : cntA ((k', c) :: b) k = cntA b k := by
  simp [cntA, List.filter_cons, h]

theorem cntA_eq_zero_of_not_keyInA {κ : Type} [DecidableEq κ] {b : List (κ × Nat)} {k : κ}
    (h : keyInA b k = false) : cntA b k = 0 := by
  have hall : ∀ e ∈ b, ¬ (fun e : κ × Nat => decide (e.1 = k)) e = true := by
    intro e he hc
    have : keyInA b k = true := List.any_eq_true.mpr ⟨e, he, hc⟩
    rw [this] at h
    exact Bool.noConfusion h
  simp only [cntA, List.filter_eq_nil_iff.mpr hall, List.map_nil, List.sum_nil]

/-- Master characterization of the batch merge: the count looked up after
`applyBatch` is the old count plus the batch's total for that key when the
batch mentions the key, and is untouched otherwise. -/
theorem getA_applyBatch {κ : Type} [DecidableEq κ] (b : List (κ × Nat)) (st : List (κ × Nat))
    (k : κ) :
    getA (applyBatch st b) k =
      if keyInA b k then some ((getA st k).getD 0 + cntA b k) else getA st k := by
  induction b generalizing st with
  | nil => simp [applyBatch, keyInA]
  | cons e rest ih =>
    obtain ⟨k', c'⟩ := e
    have step : applyBatch st ((k', c') :: rest) = applyBatch (upsertA st (k', c')) rest := rfl
    by_cases h : k' = k
    · subst h
      have hin : keyInA ((k', c') :: rest) k' = true := by simp [keyInA]
      rw [step, ih, hin, getA_upsertA_self]
      by_cases hr : keyInA rest k' = true
      · simp [hr, cntA_cons_self, Nat.add_assoc]
      · have hr' : keyInA rest k' = false := by
          cases hx : keyInA rest k' with
          | false => rfl
          | true => exact absurd hx hr
        have hcnt : cntA ((k', c') :: rest) k' = c' := by
          simp [cntA_cons_self, cntA_eq_zero_of_not_keyInA hr']
        rw [hr', hcnt]
        simp
    · have hfil : (decide (k' = k)) = false := by simp [h]
      rw [step, ih]
      have hkey : keyInA ((k', c') :: rest) k = keyInA rest k := by
        simp [keyInA, h]
      have hcnt : cntA ((k', c') :: rest) k = cntA rest k := by
        simp [cntA, List.filter_cons, hfil]
      rw [hkey, hcnt, getA_upsertA_ne st (k', c') k h]

theorem keyInA_of_perm {κ : Type} [DecidableEq κ] {b b' : List (κ × Nat)} (h : b.Perm b')
    (k : κ) : keyInA b k = keyInA b' k := by
  have hiff : keyInA b k = true ↔ keyInA b' k = true := by
    simp only [keyInA, List.any_eq_true]
    constructor
    · rintro ⟨e, he, hc⟩
      exact ⟨e, h.mem_iff.mp he, hc⟩
    · rintro ⟨e, he, hc⟩
      exact ⟨e, h.mem_iff.mpr he, hc⟩
  cases hb : keyInA b k with
  | true => exact (hiff.mp hb).symm
  | false =>
    cases hb' : keyInA b' k with
    | false => rfl
    | true => exact absurd (hiff.mpr hb') (by simp [hb])

theorem cntA_of_perm {κ : Type} [DecidableEq κ] {b b' : List (κ × Nat)} (h : b.Perm b')
    (k : κ) : cntA b k = cntA b' k := by
  unfold cntA
  exact ((h.filter _).map Prod.snd).sum_eq

theorem cntA_eq_zero_of_not_mem_keys {κ : Type} [DecidableEq κ] {b : List (κ × Nat)} {k : κ}
    (h : k ∉ b.map Prod.fst) : cntA b k = 0 := by
  apply cntA_eq_zero_of_not_keyInA
  cases hx : keyInA b k with
  | false => rfl
  | true =>
    obtain ⟨e, he, hc⟩ := List.any_eq_true.mp hx
    have : e.1 = k := of_decide_eq_true hc
    exact absurd (this ▸ List.mem_map_of_mem Prod.fst he) h

/-- A batch whose keys are pairwise distinct (a Python `dict` serialized by
`.items()`) carries, for a key bound to `c`, exactly the count `c`. -/
theorem cntA_eq_of_nodup {κ : Type} [DecidableEq κ] {b : List (κ × Nat)} {k : κ} {c : Nat}
    (hnd : (b.map Prod.fst).Nodup) (hmem : (k, c) ∈ b) : cntA b k = c := by
  induction b with
  | nil => exact absurd hmem (List.not_mem_nil _)
  | cons e rest ih =>
    obtain ⟨k', c'⟩ := e
    rw [List.map_cons, List.nodup_cons] at hnd
    rcases List.mem_cons.mp hmem with heq | htail
    · have hk : k = k' := congrArg Prod.fst heq
      have hc : c = c' := congrArg Prod.snd heq
      subst hk
      subst hc
      simp [cntA_cons_self, cntA_eq_zero_of_not_mem_keys hnd.1]
    · have hkmem : k ∈ rest.map Prod.fst := by
        have : Prod.fst (k, c) ∈ rest.map Prod.fst := List.mem_map_of_mem Prod.fst htail
        exact this
      have hk' : k' ≠ k := fun hkk => hnd.1 (hkk ▸ hkmem)
      rw [cntA_cons_ne c' rest hk']
      exact ih hnd.2 htail

theorem mem_of_mem_dropLast {α : Type} {l : List α} {x : α} (h : x ∈ l.dropLast) : x ∈ l := by
  induction l with
  | nil => simp at h
  | cons a l ih =>
    cases l with
    | nil => simp [List.dropLast] at h
    | cons b l' =>
      rw [List.dropLast_cons₂] at h
      rcases List.mem_cons.mp h with h | h
      · exact h ▸ List.mem_cons_self a _
      · exact List.mem_cons_of_mem a (ih h)

theorem findPlus_eq_none {cs : List Char} (h : '+' ∉ cs) : findPlus cs = none := by
  induction cs with
  | nil => rfl
  | cons c cs ih =>
    have hc : c ≠ '+' := fun hx => h (hx ▸ List.mem_cons_self c cs)
    simp [findPlus, hc, ih (fun hx => h (List.mem_cons_of_mem c hx))]

theorem findPlus_lt_length {cs : List Char} {i : Nat} (h : findPlus cs = some i) :
    i < cs.length := by
  induction cs generalizing i with
  | nil => simp [findPlus] at h
  | cons c cs ih =>
    simp only [findPlus] at h
    by_cases hc : c = '+'
    · rw [if_pos hc] at h
      have h0 : 0 = i := Option.some.inj h
      simp only [List.length_cons]
      omega
    · rw [if_neg hc] at h
      cases hfp : findPlus cs with
      | none =>
        rw [hfp] at h
        exact absurd h (by simp)
      | some j =>
        rw [hfp] at h
        have hji : j + 1 = i := by simpa using h
        have := ih hfp
        simp only [List.length_cons]
        omega

theorem upsertA_length_le {κ : Type} [DecidableEq κ] (l : List (κ × Nat)) (e : κ × Nat) :
    (upsertA l e).length ≤ l.length + 1 := by
  induction l with
  | nil => simp [upsertA]
  | cons e' rest ih =>
    obtain ⟨k', c'⟩ := e'
    by_cases h : k' = e.1
    · simp [upsertA, h]
    · simp only [upsertA, if_neg h, List.length_cons]
      omega

theorem mem_keys_upsertA {κ : Type} [DecidableEq κ] {l : List (κ × Nat)} {e : κ × Nat} {x : κ}
    (h : x ∈ (upsertA l e).map Prod.fst) : x ∈ l.map Prod.fst ∨ x = e.1 := by
  induction l with
  | nil =>
    simp [upsertA] at h
    exact Or.inr h
  | cons e' rest ih =>
    obtain ⟨k', c'⟩ := e'
    by_cases hk : k' = e.1
    · simp only [upsertA, if_pos hk, List.map_cons, List.mem_cons] at h
      rcases h with h | h
      · exact Or.inr (h.trans hk)
      · exact Or.inl (List.mem_cons_of_mem k' h)
    · simp only [upsertA, if_neg hk, List.map_cons, List.mem_cons] at h
      rcases h with h | h
      · exact Or.inl (List.mem_cons.mpr (Or.inl h))
      · rcases ih h with h' | h'
        · exact Or.inl (List.mem_cons_of_mem k' h')
        · exact Or.inr h'

theorem upsertA_keys_nodup {κ : Type} [DecidableEq κ] {l : List (κ × Nat)} (e : κ × Nat)
    (h : (l.map Prod.fst).Nodup) : ((upsertA l e).map Prod.fst).Nodup := by
  induction l with
  | nil => simp [upsertA]
  | cons e' rest ih =>
    obtain ⟨k', c'⟩ := e'
    rw [List.map_cons, List.nodup_cons] at h
    by_cases hk : k' = e.1
    · rw [upsertA, if_pos hk, List.map_cons, List.nodup_cons]
      exact ⟨h.1, h.2⟩
    · rw [upsertA, if_neg hk, List.map_cons, List.nodup_cons]
      refine ⟨?_, ih h.2⟩
      intro hx
      rcases mem_keys_upsertA hx with h' | h'
      · exact h.1 h'
      · exact hk h'

/-- The committed-batch trace of one step of the loop: a possibly due
intermediate flush, then the rest of the run (cut short when the
timestamp is malformed). -/
theorem processLoop_batches_cons (thr : Nat) (r : Record) (rest : List Record) (buf : Buf)
    (st : Store) :
    (processLoop thr (r :: rest) buf st).batches =
      (if thr ≤ buf.length then [buf] else []) ++
      (match rfc_to_utc_dt r.timestamp with
        | .error _ => []
        | .ok t =>
          (processLoop thr rest
            (upsertA (if thr ≤ buf.length then [] else buf) ((r.customer_id, roundMinute t), 1))
            (if thr ≤ buf.length then batch_commit st buf else st)).batches) := by
  simp only [processLoop]
  cases hts : rfc_to_utc_dt r.timestamp with
  | error e => simp [IngestResult.batches]
  | ok t =>
    cases hrec :
        processLoop thr rest
          (upsertA (if thr ≤ buf.length then [] else buf) ((r.customer_id, roundMinute t), 1))
          (if thr ≤ buf.length then batch_commit st buf else st) with
    | ok st' bs tr => simp [hrec, IngestResult.batches]
    | malformed st' bs tr => simp [hrec, IngestResult.batches]

/-- The buffer trace of one step of the loop. -/
theorem processLoop_bufs_cons (thr : Nat) (r : Record) (rest : List Record) (buf : Buf)
    (st : Store) :
    (processLoop thr (r :: rest) buf st).bufs =
      (match rfc_to_utc_dt r.timestamp with
        | .error _ => []
        | .ok t =>
          upsertA (if thr ≤ buf.length then [] else buf) ((r.customer_id, roundMinute t), 1) ::
          (processLoop thr rest
            (upsertA (if thr ≤ buf.length then [] else buf) ((r.customer_id, roundMinute t), 1))
            (if thr ≤ buf.length then batch_commit st buf else st)).bufs) := by
  simp only [processLoop]
  cases hts : rfc_to_utc_dt r.timestamp with
  | error e => simp [IngestResult.bufs]
  | ok t =>
    cases hrec :
        processLoop thr rest
          (upsertA (if thr ≤ buf.length then [] else buf) ((r.customer_id, roundMinute t), 1))
          (if thr ≤ buf.length then batch_commit st buf else st) with
    | ok st' bs tr => simp [hrec, IngestResult.bufs]
    | malformed st' bs tr => simp [hrec, IngestResult.bufs]

theorem processLoop_ok_batches_ne_nil (thr : Nat) :
    ∀ (rs : List Record) (buf : Buf) (st : Store) {st' : Store} {bs : List Batch}
      {tr : List Buf}, processLoop thr rs buf st = .ok st' bs tr → bs ≠ [] := by
  intro rs
  induction rs with
  | nil =>
    intro buf st st' bs tr h
    simp only [processLoop, IngestResult.ok.injEq] at h
    rw [← h.2.1]
    simp
  | cons r rest ih =>
    intro buf st st' bs tr h
    simp only [processLoop] at h
    split at h
    · exact absurd h (by simp)
    · split at h
      · rename_i st2 bs2 tr2 hrec
        simp only [IngestResult.ok.injEq] at h
        rw [← h.2.1]
        have hne := ih _ _ hrec
        intro hx
        exact hne (List.append_eq_nil.mp hx).2
      · exact absurd h (by simp)

/-- Every batch committed by an intermediate (threshold-triggered) flush
has at least `thr` distinct keys; the only possibly smaller batch is the
final unconditional one. -/
theorem processLoop_batches_min_length (thr : Nat) :
    ∀ (rs : List Record) (buf : Buf) (st : Store),
      (∀ st' bs tr, processLoop thr rs buf st = .ok st' bs tr →
        ∀ b ∈ bs.dropLast, thr ≤ b.length) ∧
      (∀ st' bs tr, processLoop thr rs buf st = .malformed st' bs tr →
        ∀ b ∈ bs, thr ≤ b.length) := by
  intro rs
  induction rs with
  | nil =>
    intro buf st
    constructor
    · intro st' bs tr h
      simp only [processLoop, IngestResult.ok.injEq] at h
      rw [← h.2.1]
      simp
    · intro st' bs tr h
      exact absurd h (by simp [processLoop])
  | cons r rest ih =>
    intro buf st
    have hfb : ∀ b ∈ (if thr ≤ buf.length then [buf] else ([] : List Batch)),
        thr ≤ b.length := by
      by_cases hdue : thr ≤ buf.length
      · simp only [if_pos hdue, List.mem_singleton]
        intro b hb
        rw [hb]
        exact hdue
      · simp [if_neg hdue]
    constructor
    · intro st' bs tr h
      simp only [processLoop] at h
      split at h
      · exact absurd h (by simp)
      · split at h
        · rename_i st2 bs2 tr2 hrec
          simp only [IngestResult.ok.injEq] at h
          intro b hb
          rw [← h.2.1] at hb
          rw [List.dropLast_append_of_ne_nil _ (processLoop_ok_batches_ne_nil thr _ _ _ hrec)]
            at hb
          rcases List.mem_append.mp hb with hb | hb
          · exact hfb b hb
          · exact (ih _ _).1 _ _ _ hrec b hb
        · exact absurd h (by simp)
    · intro st' bs tr h
      simp only [processLoop] at h
      split at h
      · simp only [IngestResult.malformed.injEq] at h
        intro b hb
        rw [← h.2.1] at hb
        exact hfb b hb
      · split at h
        · exact absurd h (by simp)
        · rename_i st2 bs2 tr2 hrec
          simp only [IngestResult.malformed.injEq] at h
          intro b hb
          rw [← h.2.1] at hb
          rcases List.mem_append.mp hb with hb | hb
          · exact hfb b hb
          · exact (ih _ _).2 _ _ _ hrec b hb

/-- Invariant of the loop: starting from a buffer within the threshold
with distinct keys, every buffer state in the trace stays within the
threshold with distinct keys. -/
theorem processLoop_bufs_invariant (thr : Nat) (hthr : 1 ≤ thr) :
    ∀ (rs : List Record) (buf : Buf) (st : Store),
      buf.length ≤ thr → (buf.map Prod.fst).Nodup →
      ∀ b ∈ (processLoop thr rs buf st).bufs, b.length ≤ thr ∧ (b.map Prod.fst).Nodup := by
  intro rs
  induction rs with
  | nil =>
    intro buf st h1 h2 b hb
    simp [processLoop, IngestResult.bufs] at hb
  | cons r rest ih =>
    intro buf st h1 h2 b hb
    rw [processLoop_bufs_cons] at hb
    split at hb
    · simp at hb
    · rename_i t hts
      set buf1 : Buf := if thr ≤ buf.length then [] else buf with hbuf1
      have hlen1 : buf1.length + 1 ≤ thr ∨ buf1 = [] := by
        by_cases hdue : thr ≤ buf.length
        · exact Or.inr (by simp [hbuf1, hdue])
        · exact Or.inl (by simp only [hbuf1, if_neg hdue]; omega)
      have hnd1 : (buf1.map Prod.fst).Nodup := by
        by_cases hdue : thr ≤ buf.length
        · simp [hbuf1, hdue]
        · simp only [hbuf1, if_neg hdue]; exact h2
      set buf2 : Buf := upsertA buf1 ((r.customer_id, roundMinute t), 1) with hbuf2
      have hlen2 : buf2.length ≤ thr := by
        rw [hbuf2]
        rcases hlen1 with h | h
        · have := upsertA_length_le buf1 ((r.customer_id, roundMinute t), 1)
          omega
        · rw [h]
          simpa [upsertA] using hthr
      have hnd2 : (buf2.map Prod.fst).Nodup := upsertA_keys_nodup _ hnd1
      rcases List.mem_cons.mp hb with hb | hb
      · exact hb ▸ ⟨hlen2, hnd2⟩
      · exact ih buf2 _ hlen2 hnd2 b hb

/-! ### The claims -/

/-- C2: for every entry `(customer, minute, count)` of a batch handed to
`batch_commit`, if no durable row exists for the key the merge creates one
with `event_count = count`; if a row with `event_count = old` exists the
merged row holds `old + count`; rows for keys the batch does not mention
are untouched. -/
theorem c2_batch_commit_merges_each_entry (st : Store) (b : Batch) (k : Key) (c : Nat)
    (hnd : (b.map Prod.fst).Nodup) (hmem : (k, c) ∈ b) :
    (getA st k = none → getA (batch_commit st b) k = some c) ∧
    (∀ old, getA st k = some old → getA (batch_commit st b) k = some (old + c)) ∧
    (∀ k' : Key, keyInA b k' = false → getA (batch_commit st b) k' = getA st k') := by
  have hkey : keyInA b k = true := List.any_eq_true.mpr ⟨(k, c), hmem, by simp⟩
  have hcnt : cntA b k = c := cntA_eq_of_nodup hnd hmem
  refine ⟨?_, ?_, ?_⟩
  · intro h0
    simp [batch_commit, getA_applyBatch, hkey, hcnt, h0]
  · intro old hold
    simp [batch_commit, getA_applyBatch, hkey, hcnt, hold]
  · intro k' hk'
    simp [batch_commit, getA_applyBatch, hk']

theorem c2_batch_commit_merges_each_entry_witness :
    (((([(("c1", (0 : Int)), 3), (("c2", 0), 5)] : Batch).map Prod.fst).Nodup ∧
        ((("c1", (0 : Int)), 3) ∈ ([(("c1", 0), 3), (("c2", 0), 5)] : Batch))) ∧
      (getA ([(("c1", (0 : Int)), 2)] : Store) ("c1", 0) = some 2 →
        getA (batch_commit [(("c1", 0), 2)] [(("c1", 0), 3), (("c2", 0), 5)]) ("c1", 0) =
          some (2 + 3))) := by
  refine ⟨⟨by decide, by decide⟩, ?_⟩
  intro h
  exact (c2_batch_commit_merges_each_entry [(("c1", 0), 2)] [(("c1", 0), 3), (("c2", 0), 5)]
    ("c1", 0) 3 (by decide) (by decide)).2.1 2 h

/-- C3: applying `batch_commit` with batch `B1` and then `B2` leaves, for a
key both batches mention, the old count plus the sum of every increment of
both batches; and the resulting table is pointwise independent of the
order of the two batches and of the order of entries inside each batch. -/
theorem c3_batch_commit_order_insensitive (st : Store) (b1 b2 b1' b2' : Batch) (k : Key)
    (h1 : b1.Perm b1') (h2 : b2.Perm b2') :
    (keyInA b1 k = true → keyInA b2 k = true →
      getA (batch_commit (batch_commit st b1) b2) k =
        some ((getA st k).getD 0 + (cntA b1 k + cntA b2 k))) ∧
    (∀ k' : Key,
      getA (batch_commit (batch_commit st b1) b2) k' =
        getA (batch_commit (batch_commit st b2') b1') k') := by
  constructor
  · intro hk1 hk2
    simp [batch_commit, getA_applyBatch, hk1, hk2, Nat.add_assoc]
  · intro k'
    simp only [batch_commit, getA_applyBatch]
    rw [keyInA_of_perm h1 k', keyInA_of_perm h2 k', cntA_of_perm h1 k', cntA_of_perm h2 k']
    cases hx : keyInA b1' k' <;> cases hy : keyInA b2' k' <;>
      simp [hx, hy, Nat.add_comm, Nat.add_assoc, Nat.add_left_comm]

theorem c3_batch_commit_order_insensitive_witness :
    (([(("c1", (0 : Int)), 1), (("c2", 0), 4)] : Batch).Perm
        [(("c2", (0 : Int)), 4), (("c1", 0), 1)] ∧
      ([(("c1", (0 : Int)), 2)] : Batch).Perm [(("c1", (0 : Int)), 2)]) ∧
    getA (batch_commit (batch_commit ([] : Store) [(("c1", 0), 1), (("c2", 0), 4)])
        [(("c1", 0), 2)]) ("c1", 0) =
      getA (batch_commit (batch_commit ([] : Store) [(("c1", 0), 2)])
        [(("c2", 0), 4), (("c1", 0), 1)]) ("c1", 0) := by
  have hp1 : ([(("c1", (0 : Int)), 1), (("c2", 0), 4)] : Batch).Perm
      [(("c2", (0 : Int)), 4), (("c1", 0), 1)] := List.Perm.swap _ _ _
  have hp2 : ([(("c1", (0 : Int)), 2)] : Batch).Perm [(("c1", (0 : Int)), 2)] := List.Perm.refl _
  exact ⟨⟨hp1, hp2⟩,
    (c3_batch_commit_order_insensitive [] [(("c1", 0), 1), (("c2", 0), 4)] [(("c1", 0), 2)]
      [(("c2", 0), 4), (("c1", 0), 1)] [(("c1", 0), 2)] ("c1", 0) hp1 hp2).2 ("c1", 0)⟩

/-- C1: during ingestion, an intermediate flush is triggered exactly when
the buffer's distinct-key count has reached the threshold (checked before
processing each record), with one more unconditional flush at
end-of-stream: with threshold 2, three records with distinct
`(customer, minute)` keys yield exactly one intermediate flush of the
first two keys followed by a final flush of the remaining one; a final
flush of an empty buffer writes no rows; and every batch other than the
final one has at least threshold-many keys. -/
theorem c1_flush_threshold_policy :
    (processLoop 2 [exR1, exR2, exR3] [] [] =
      .ok [(("c1", bkt 14 15), 1), (("c1", bkt 14 16), 1), (("c1", bkt 14 17), 1)]
        [[(("c1", bkt 14 15), 1), (("c1", bkt 14 16), 1)], [(("c1", bkt 14 17), 1)]]
        [[(("c1", bkt 14 15), 1)],
         [(("c1", bkt 14 15), 1), (("c1", bkt 14 16), 1)],
         [(("c1", bkt 14 17), 1)]]) ∧
    (∀ st : Store, batch_commit st ([] : Batch) = st) ∧
    (∀ (thr : Nat) (rs : List Record) (buf : Buf) (st : Store) (b : Batch),
      b ∈ ((processLoop thr rs buf st).batches).dropLast → thr ≤ b.length) := by
  refine ⟨by rfl, fun st => rfl, ?_⟩
  intro thr rs buf st b hb
  cases hres : processLoop thr rs buf st with
  | ok st' bs tr =>
    rw [hres] at hb
    simp only [IngestResult.batches] at hb
    exact (processLoop_batches_min_length thr rs buf st).1 st' bs tr hres b hb
  | malformed st' bs tr =>
    rw [hres] at hb
    simp only [IngestResult.batches] at hb
    exact (processLoop_batches_min_length thr rs buf st).2 st' bs tr hres b
      (mem_of_mem_dropLast hb)

theorem c1_flush_threshold_policy_witness :
    ([(("c1", bkt 14 15), 1), (("c1", bkt 14 16), 1)] : Batch) ∈
        ((processLoop 2 [exR1, exR2, exR3] [] []).batches).dropLast ∧
      2 ≤ ([(("c1", bkt 14 15), 1), (("c1", bkt 14 16), 1)] : Batch).length := by
  have he : ((processLoop 2 [exR1, exR2, exR3] [] []).batches).dropLast =
      [[(("c1", bkt 14 15), 1), (("c1", bkt 14 16), 1)]] := by rfl
  have hmem : ([(("c1", bkt 14 15), 1), (("c1", bkt 14 16), 1)] : Batch) ∈
      ((processLoop 2 [exR1, exR2, exR3] [] []).batches).dropLast := by
    rw [he]
    exact List.mem_singleton.mpr rfl
  exact ⟨hmem, c1_flush_threshold_policy.2.2 2 [exR1, exR2, exR3] [] [] _ hmem⟩

/-- C5: a timestamp containing no `'+'` makes `rfc_to_utc_dt` fail with
`MalformedTimestamp` (`timestamp.index('+')` raises before any parsing);
inside `process_csv` this aborts the run at that record: the batch being
accumulated at failure time commits zero rows, while any flush performed
before the failure (including a threshold flush due immediately before
this record) remains committed. -/
theorem c5_no_plus_is_fatal (s : String) (hs : '+' ∉ s.data) :
    rfc_to_utc_dt s = .error .malformedTimestamp ∧
    ∀ (thr : Nat) (r : Record) (rest : List Record) (buf : Buf) (st : Store),
      r.timestamp = s →
      processLoop thr (r :: rest) buf st =
        .malformed (if thr ≤ buf.length then batch_commit st buf else st)
          (if thr ≤ buf.length then [buf] else []) [] := by
  have herr : rfc_to_utc_dt s = .error .malformedTimestamp := by
    unfold rfc_to_utc_dt
    rw [findPlus_eq_none hs]
  refine ⟨herr, ?_⟩
  intro thr r rest buf st hts
  simp only [processLoop, hts, herr]

theorem c5_no_plus_is_fatal_witness :
    ('+' ∉ "garbage".data ∧ exBad.timestamp = "garbage") ∧
      processLoop 2 [exBad] [] [] = .malformed [] [] [] :=
  ⟨⟨by decide, rfl⟩, (c5_no_plus_is_fatal "garbage" (by decide)).2 2 exBad [] [] [] rfl⟩

/-- C10: after each record processed by `process_csv`, the in-memory
buffer holds at most 1000 distinct `(customer, minute)` keys, because the
threshold check and flush happen before a record can add a key to a
buffer that has already reached 1000 keys. -/
theorem c10_buffer_bounded (rs : List Record) (st : Store) :
    ∀ b ∈ (process_csv rs st).bufs, b.length ≤ 1000 ∧ (b.map Prod.fst).Nodup := by
  intro b hb
  exact processLoop_bufs_invariant 1000 (by omega) rs [] st (by simp) (by simp) b hb

theorem c10_buffer_bounded_witness :
    ([(("c1", bkt 14 15), 1)] : Buf) ∈ (process_csv [exR1] []).bufs ∧
      ([(("c1", bkt 14 15), 1)] : Buf).length ≤ 1000 ∧
      ((([(("c1", bkt 14 15), 1)] : Buf)).map Prod.fst).Nodup := by
  have he : (process_csv [exR1] []).bufs = [[(("c1", bkt 14 15), 1)]] := by rfl
  have hmem : ([(("c1", bkt 14 15), 1)] : Buf) ∈ (process_csv [exR1] []).bufs := by
    rw [he]
    exact List.mem_singleton.mpr rfl
  exact ⟨hmem, c10_buffer_bounded [exR1] [] _ hmem⟩

/-- C6: a flush is all-or-nothing. On success every entry of the batch is
merged by `batch_commit` in one transaction and the buffer is cleared; on
a transaction failure the error propagates, the store gains no entry of
the batch, and the driver's buffer is left exactly as it was (the code
clears it only after `batch_commit` returns), so the identical flush can
be retried. -/
theorem c6_flush_all_or_nothing :
    (∀ (st : Store) (buf : Buf),
      flushAttempt false st buf = .ok (batch_commit st buf, []) ∧
      flushAttempt true st buf = .error ()) ∧
    (∀ (st : Store) (buf : Buf) (k : Key), keyInA buf k = true →
      getA (batch_commit st buf) k = some ((getA st k).getD 0 + cntA buf k)) ∧
    (∀ (thr : Nat) (sched : List Bool) (r : Record) (rest : List Record) (buf : Buf)
      (st : Store), thr ≤ buf.length → sched.headD false = true →
      processLoopF thr sched (r :: rest) buf st = .storageFailed st buf) ∧
    (∀ (thr : Nat) (sched : List Bool) (buf : Buf) (st : Store),
      sched.headD false = true →
      processLoopF thr sched [] buf st = .storageFailed st buf) := by
  refine ⟨fun st buf => ⟨rfl, rfl⟩, ?_, ?_, ?_⟩
  · intro st buf k hk
    simp [batch_commit, getA_applyBatch, hk]
  · intro thr sched r rest buf st hdue hsched
    simp only [processLoopF]
    rw [if_pos hdue, hsched]
    rfl
  · intro thr sched buf st hsched
    simp only [processLoopF]
    rw [hsched]
    rfl

theorem c6_flush_all_or_nothing_witness :
    (2 ≤ ([(("c1", bkt 14 15), 1), (("c1", bkt 14 16), 1)] : Buf).length ∧
        ([true].headD false = true)) ∧
      processLoopF 2 [true] [exR3] [(("c1", bkt 14 15), 1), (("c1", bkt 14 16), 1)] [] =
        .storageFailed [] [(("c1", bkt 14 15), 1), (("c1", bkt 14 16), 1)] :=
  ⟨⟨by decide, rfl⟩,
    c6_flush_all_or_nothing.2.2.1 2 [true] exR3 []
      [(("c1", bkt 14 15), 1), (("c1", bkt 14 16), 1)] [] (by decide) rfl⟩

/-- C7: when the offset suffix after the first `'+'` is shorter than 4
characters, `rfc_to_utc_dt` right-pads it with `'0'` to exactly 4
characters before parsing (the padded string has length `i + 5` for a
`'+'` at index `i`), and `...+00` normalizes to the same UTC instant as
`...+0000`. -/
theorem c7_offset_padding :
    (∀ (s : String) (i : Nat), findPlus s.data = some i → s.length - (i + 1) < 4 →
      padTimestamp s i = s ++ String.mk (List.replicate (4 - (s.length - (i + 1))) '0') ∧
      (padTimestamp s i).length = i + 5 ∧
      rfc_to_utc_dt s = parsePadded (padTimestamp s i)) ∧
    rfc_to_utc_dt "2021-03-01 14:15:30.500000+00" =
      rfc_to_utc_dt "2021-03-01 14:15:30.500000+0000" ∧
    rfc_to_utc_dt "2021-03-01 14:15:30.500000+00" =
      .ok (epochMicros 2021 3 1 14 15 30 500000) := by
  refine ⟨?_, by rfl, by rfl⟩
  intro s i hfp hlt
  have hne : s.length - (i + 1) ≠ 4 := by omega
  have hilen : i < s.length := findPlus_lt_length hfp
  refine ⟨?_, ?_, ?_⟩
  · simp [padTimestamp, hne]
  · have hlen : (padTimestamp s i).length = s.length + (4 - (s.length - (i + 1))) := by
      simp [padTimestamp, hne]
    omega
  · unfold rfc_to_utc_dt
    rw [hfp]

theorem c7_offset_padding_witness :
    (findPlus ("2021-03-01 14:15:30.500000+00" : String).data = some 26 ∧
        ("2021-03-01 14:15:30.500000+00" : String).length - (26 + 1) < 4) ∧
      rfc_to_utc_dt "2021-03-01 14:15:30.500000+00" =
        parsePadded (padTimestamp "2021-03-01 14:15:30.500000+00" 26) :=
  ⟨⟨by rfl, by decide⟩,
    (c7_offset_padding.1 "2021-03-01 14:15:30.500000+00" 26 (by rfl) (by decide)).2.2⟩

/-- C8: the minute bucket of a normalized timestamp is the UTC instant
with seconds and sub-second components zeroed (rounding down to the
minute); both `...14:15:30.500000+0000` and `...14:15:59.999999+0000`
land in bucket `2021-03-01 14:15:00+0000`. -/
theorem c8_minute_bucket_rounds_down :
    (∀ (y mo d h mi s us : Nat), s ≤ 59 → us < 1000000 →
      roundMinute (epochMicros y mo d h mi s us) = epochMicros y mo d h mi 0 0) ∧
    (rfc_to_utc_dt "2021-03-01 14:15:30.500000+0000").map roundMinute = .ok (bkt 14 15) ∧
    (rfc_to_utc_dt "2021-03-01 14:15:59.999999+0000").map roundMinute = .ok (bkt 14 15) := by
  refine ⟨?_, by rfl, by rfl⟩
  intro y mo d h mi s us hs hus
  unfold epochMicros roundMinute
  have hsplit :
      (((((toOrdinal y mo d) * 24 + h) * 3600 + mi * 60 + s) * 1000000 + us : Nat) : Int) =
        (((toOrdinal y mo d) * 24 + h) * 60 + mi : Nat) * 60000000 +
          ((s * 1000000 + us : Nat) : Int) := by
    push_cast
    ring
  rw [hsplit]
  have h1 : ((s * 1000000 + us : Nat) : Int) < 60000000 := by
    have hlt : s * 1000000 + us < 60000000 := by omega
    exact_mod_cast hlt
  have h0 : (0 : Int) ≤ ((s * 1000000 + us : Nat) : Int) := Int.natCast_nonneg _
  have hmod :
      (((((toOrdinal y mo d) * 24 + h) * 60 + mi : Nat) : Int) * 60000000 +
          ((s * 1000000 + us : Nat) : Int)) % 60000000 =
        ((s * 1000000 + us : Nat) : Int) := by
    omega
  rw [hmod]
  push_cast
  ring

theorem c8_minute_bucket_rounds_down_witness :
    (30 ≤ 59 ∧ 500000 < 1000000) ∧
      roundMinute (epochMicros 2021 3 1 14 15 30 500000) = epochMicros 2021 3 1 14 15 0 0 :=
  ⟨⟨by decide, by decide⟩,
    c8_minute_bucket_rounds_down.1 2021 3 1 14 15 30 500000 (by decide) (by decide)⟩

theorem keyInA_map_hourFloor (rows : List (Key × Nat)) (h : Int) :
    keyInA (rows.map (fun row => (hourFloor row.1.2, row.2))) h =
      rows.any (fun row => decide (hourFloor row.1.2 = h)) := by
  induction rows with
  | nil => rfl
  | cons row rest ih =>
    simp only [List.map_cons, keyInA, List.any_cons] at ih ⊢
    rw [← ih]

theorem cntA_map_hourFloor (rows : List (Key × Nat)) (h : Int) :
    cntA (rows.map (fun row => (hourFloor row.1.2, row.2))) h =
      ((rows.filter (fun row => decide (hourFloor row.1.2 = h))).map Prod.snd).sum := by
  induction rows with
  | nil => rfl
  | cons row rest ih =>
    rw [List.map_cons]
    by_cases hh : hourFloor row.1.2 = h
    · rw [hh, cntA_cons_self, ih, List.filter_cons]
      simp [hh]
    · rw [cntA_cons_ne _ _ hh, ih, List.filter_cons]
      simp [hh]

/-- C4: `hourly_event_count` filters minute buckets to
`minute >= start AND minute < end` before summing by hour. On the §8
fixture (buckets 14:15, 14:45, 15:15, count 1 each) with the range
`[14:30, 15:30)` it returns exactly hour 14:00 with count 1 and hour
15:00 with count 1; a query with `start == end` returns an empty mapping;
and in general an hour appears in the result exactly when it has a
matching minute bucket, with the sum of the matching counts. -/
theorem c4_hourly_rollup_boundary_clipping :
    (hourly_event_count (some "c1") (some "2021-03-01 14:30:00+0000")
        (some "2021-03-01 15:30:00+0000") exStore3 =
      .ok [(epochMicros 2021 3 1 14 0 0 0, 1), (epochMicros 2021 3 1 15 0 0 0, 1)]) ∧
    (∀ (cid : Option String) (s : String) (t : Int) (st : Store),
      rfc_to_utc_dt s = .ok t →
      hourly_event_count cid (some s) (some s) st = .ok []) ∧
    (∀ (c s e : String) (ts te : Int) (st : Store),
      rfc_to_utc_dt s = .ok ts → rfc_to_utc_dt e = .ok te →
      hourly_event_count (some c) (some s) (some e) st =
        .ok (groupByHour (st.filter (fun row =>
          decide (row.1.1 = c) && decide (ts ≤ row.1.2) && decide (row.1.2 < te))))) ∧
    (∀ (rows : List (Key × Nat)) (h : Int),
      getA (groupByHour rows) h =
        if rows.any (fun row => decide (hourFloor row.1.2 = h)) then
          some (((rows.filter (fun row => decide (hourFloor row.1.2 = h))).map Prod.snd).sum)
        else none) := by
  refine ⟨by rfl, ?_, ?_, ?_⟩
  · intro cid s t st h
    simp only [hourly_event_count, h]
    have hfil : st.filter (fun row =>
        (match cid with
          | some c => decide (row.1.1 = c)
          | none => false)
        && decide (t ≤ row.1.2) && decide (row.1.2 < t)) = [] := by
      refine List.filter_eq_nil_iff.mpr ?_
      intro row hrow hp
      simp only [Bool.and_eq_true, decide_eq_true_eq] at hp
      omega
    rw [hfil]
    rfl
  · intro c s e ts te st hs hte
    simp only [hourly_event_count, hs, hte]
  · intro rows h
    rw [groupByHour, getA_applyBatch, keyInA_map_hourFloor, cntA_map_hourFloor]
    cases hany : rows.any (fun row => decide (hourFloor row.1.2 = h)) <;> simp [getA]

theorem c4_hourly_rollup_boundary_clipping_witness :
    rfc_to_utc_dt "2021-03-01 14:30:00+0000" = .ok (epochMicros 2021 3 1 14 30 0 0) ∧
      hourly_event_count (some "c1") (some "2021-03-01 14:30:00+0000")
        (some "2021-03-01 14:30:00+0000") exStore3 = .ok [] :=
  ⟨by rfl,
    c4_hourly_rollup_boundary_clipping.2.1 (some "c1") "2021-03-01 14:30:00+0000"
      (epochMicros 2021 3 1 14 30 0 0) exStore3 (by rfl)⟩

/-- C9, counterexample: the HTTP route performs no missing-parameter
validation. A request with no `customer_id` but valid `start`/`end` is
not rejected with a client error before storage access: the handler runs
the storage query with a NULL customer id and returns a 200 response with
an empty mapping (first conjunct), over the very store and range that a
present customer id would match (second conjunct). -/
theorem c9_route_missing_param_not_rejected :
    hourly_event_count_route none (some "2021-03-01 14:30:00+0000")
        (some "2021-03-01 15:30:00+0000") exStore3 = .response [] ∧
    hourly_event_count (some "c1") (some "2021-03-01 14:30:00+0000")
        (some "2021-03-01 15:30:00+0000") exStore3 =
      .ok [(epochMicros 2021 3 1 14 0 0 0, 1), (epochMicros 2021 3 1 15 0 0 0, 1)] :=
  ⟨by rfl, by rfl⟩

/-- C9, amended: only the CLI query path validates its inputs — a falsy
customer id, start, or end makes it print a diagnostic and exit before
any storage access. The HTTP route does not validate: a missing `start`
or `end` raises an unhandled exception inside timestamp normalization
(HTTP 500, before storage access), while a missing `customer_id` alone
lets the storage query run with a NULL customer id, matching no rows. -/
theorem c9_missing_param_handling_amended :
    (∀ (c s e : Option String) (st : Store),
      (argMissing c || argMissing s || argMissing e) = true →
      cliMain c s e st = .missingArgs) ∧
    (∀ (c e : Option String) (st : Store),
      hourly_event_count_route c none e st = .serverError) ∧
    (∀ (c : Option String) (s : String) (t : Int) (st : Store),
      rfc_to_utc_dt s = .ok t →
      hourly_event_count_route c (some s) none st = .serverError) ∧
    (∀ (s e : String) (ts te : Int) (st : Store),
      rfc_to_utc_dt s = .ok ts → rfc_to_utc_dt e = .ok te →
      hourly_event_count_route none (some s) (some e) st = .response []) := by
  refine ⟨?_, ?_, ?_, ?_⟩
  · intro c s e st h
    simp [cliMain, h]
  · intro c e st
    rfl
  · intro c s t st h
    have hq : hourly_event_count c (some s) none st = .error .attributeError := by
      simp only [hourly_event_count, h]
    simp [hourly_event_count_route, hq]
  · intro s e ts te st hs hte
    have hq : hourly_event_count none (some s) (some e) st =
        .ok (groupByHour (st.filter (fun row =>
          false && decide (ts ≤ row.1.2) && decide (row.1.2 < te)))) := by
      simp only [hourly_event_count, hs, hte]
    rw [hourly_event_count_route, hq]
    simp [List.filter_false]
    rfl

theorem c9_missing_param_handling_amended_witness :
    (argMissing none || argMissing (some "2021-03-01 14:30:00+0000") ||
        argMissing (some "2021-03-01 15:30:00+0000")) = true ∧
      cliMain none (some "2021-03-01 14:30:00+0000")
        (some "2021-03-01 15:30:00+0000") exStore3 = .missingArgs :=
  ⟨rfl,
    c9_missing_param_handling_amended.1 none (some "2021-03-01 14:30:00+0000")
      (some "2021-03-01 15:30:00+0000") exStore3 rfl⟩

end EventAgg
